import Mathlib

/-!
# Verification of `src/mcp/pf2e_server.py`

A shallow embedding of the Pathfinder-2E MCP search server:

* `build_global_index` — walks a directory tree (modelled as the list of
  `(root, files)` pairs that `os.walk` yields, in traversal order), derives a
  Document Key from every `*.json` file name and records `key ↦ full path` in
  a Python-style dict (insertion ordered, later assignment to an existing key
  overwrites the value in place).
* `pf2e_search` — ranks the index keys against a query via the external
  fuzzy scorer (`thefuzz.process.extract`, a black box here: the ranked
  `(candidate, score)` list it returns is a parameter `extract`), keeps
  matches with score strictly above 60, then runs the retrieval loop over
  the survivors.  The loop header on line 42 unpacks each match tuple into
  three targets, but for non-mapping choices such as the `dict_keys` view
  `INDEX.keys()` the scorer returns `(candidate, score)` 2-tuples, so the
  unpacking raises `ValueError` on the first iteration (`unpack3`); the
  rest of the body — index lookup, file load, block assembly — is embedded
  as written, though unreachable.

The filesystem at query time is modelled as `fs : String → Option String`,
mapping a path to the re-serialized content `json.dumps(json.load(f), indent=2)`
of the file, or `none` when the file is missing or its content is malformed
(the JSON library is an external collaborator; its round-trip is opaque to
this program, which treats file contents as blobs).  `Except.error` models an
uncaught Python exception escaping `pf2e_search`.
-/

/-- Python `s.replace(pat, rep)` on `List Char`: scan left to right,
replace each non-overlapping occurrence of `pat`, never rescanning the
replacement text.  (The program only uses non-empty patterns.) -/
def pyReplaceL (pat rep : List Char) : List Char → List Char
  | [] => []
  | c :: rest =>
    if pat ≠ [] ∧ pat.isPrefixOf (c :: rest) then
      rep ++ pyReplaceL pat rep ((c :: rest).drop pat.length)
    else
      c :: pyReplaceL pat rep rest
termination_by l => l.length
decreasing_by
  · simp only [List.length_drop, List.length_cons]
    have hpat : 0 < pat.length := List.length_pos.mpr (by tauto)
    omega
  · simp

/-- Python `s.replace(pat, rep)` on `String`. -/
def pyReplace (s pat rep : String) : String :=
  ⟨pyReplaceL pat.data rep.data s.data⟩

/-- Python `s.endswith(suf)`, modelled as list-suffix. -/
def pyEndsWith (s suf : String) : Bool :=
  suf.data.isSuffixOf s.data

/-- The key derivation of `build_global_index`:
`file.replace(".json", "").replace(";", ":").replace("_", " ")`. -/
def nameKey (file : String) : String :=
  pyReplace (pyReplace (pyReplace file ".json" "") ";" ":") "_" " "

/-- Python `os.path.join(root, file)` for POSIX paths as the program uses it
(`file` is a bare file name produced by `os.walk`, never absolute). -/
def os_path_join (root file : String) : String :=
  if root.data = [] then file
  else if root.data.getLast? = some '/' then ⟨root.data ++ file.data⟩
  else ⟨root.data ++ '/' :: file.data⟩

/-- A Python dict `List (String × String)`: membership test for a key. -/
def dictHasKey (d : List (String × String)) (k : String) : Bool :=
  d.any (fun p => p.1 = k)

/-- Python `d[k] = v`: overwrite in place if `k` is present (keeping its
position, per dict insertion-order semantics), else append. -/
def dictInsert (d : List (String × String)) (k v : String) : List (String × String) :=
  if dictHasKey d k then
    d.map (fun p => if p.1 = k then (k, v) else p)
  else
    d ++ [(k, v)]

/-- Python `d[k]` as an `Option` (`none` models a `KeyError`). -/
def dictFind? (d : List (String × String)) (k : String) : Option String :=
  (d.find? (fun p => p.1 = k)).map (·.2)

/-- Python `d.keys()` in insertion order. -/
def dictKeys (d : List (String × String)) : List String :=
  d.map (·.1)

/-- Processing of one directory entry inside the nested loops of
`build_global_index`: `if file.endswith(".json"): global_map[name_key] = path`. -/
def indexFile (m : List (String × String)) (root file : String) : List (String × String) :=
  if pyEndsWith file ".json" then
    dictInsert m (nameKey file) (os_path_join root file)
  else
    m

/-- The source's `build_global_index()`.  The `os.walk(DATA_PATH)` traversal is the
parameter `walk`: the `(root, files)` pairs in the order the walk yields
them (the middle `dirs` component is unused by the program). -/
def build_global_index (walk : List (String × List String)) : List (String × String) :=
  walk.foldl (fun m rf => rf.2.foldl (fun m' file => indexFile m' rf.1 file) m) []

/-- Python `str.title()` (ASCII model): a letter that follows a letter is
lowercased, any other letter is uppercased; non-letters pass through and
reset the word boundary.  The flag records whether the previous character
was cased. -/
def pyTitleL : Bool → List Char → List Char
  | _, [] => []
  | prevCased, c :: rest =>
    if c.isAlpha then
      (if prevCased then c.toLower else c.toUpper) :: pyTitleL true rest
    else
      c :: pyTitleL false rest

/-- Python `s.title()`. -/
def pyTitle (s : String) : String :=
  ⟨pyTitleL false s.data⟩

/-- Python `os.path.basename(p)` for POSIX: everything after the last `'/'`. -/
def os_path_basename (p : String) : String :=
  ⟨(p.data.reverse.takeWhile (fun c => c ≠ '/')).reverse⟩

/-- Python `os.path.dirname(p)` for POSIX (CPython `posixpath.dirname`): the
prefix up to and including the last `'/'`, then with trailing slashes
stripped unless the prefix consists only of slashes. -/
def os_path_dirname (p : String) : String :=
  let head := (p.data.reverse.dropWhile (fun c => c ≠ '/')).reverse
  if head.isEmpty || head.all (fun c => c = '/') then ⟨head⟩
  else ⟨(head.reverse.dropWhile (fun c => c = '/')).reverse⟩

/-- The type of the external fuzzy scorer `thefuzz.process.extract`
(a black-box collaborator): query, candidate strings, limit ↦ ranked
`(candidate, score)` list, scores on the 0–100 scale. -/
def Extract : Type :=
  String → List String → Nat → List (String × Nat)

/-- The query-time filesystem: path ↦ the document's content re-serialized
by `json.dumps(json.load(open(path)), indent=2)`, or `none` when the file
is missing or its content is not valid JSON. -/
def Fs : Type :=
  String → Option String

/-- Line 33 of the source: `matches = process.extract(query, INDEX.keys(), limit=3)`. -/
def searchMatches (extract : Extract) (index : List (String × String))
    (query : String) : List (String × Nat) :=
  extract query (dictKeys index) 3

/-- Line 36 of the source: `good_matches = [m for m in matches if m[1] > 60]`. -/
def goodMatches (extract : Extract) (index : List (String × String))
    (query : String) : List (String × Nat) :=
  (searchMatches extract index query).filter (fun m => 60 < m.2)

/-- The result block the loop body appends for one match:
`f"--- MATCH: {match_name.title()} ({category}) --- \n{json.dumps(data, indent=2)}"`
where `category = os.path.basename(os.path.dirname(file_path))` and
`content` is the re-serialized document. -/
def matchBlock (match_name file_path content : String) : String :=
  "--- MATCH: " ++ pyTitle match_name ++ " ("
    ++ os_path_basename (os_path_dirname file_path) ++ ") --- \n" ++ content

/-- The tuple unpacking in the loop header on line 42,
`for match_name, score, _ in good_matches`: `INDEX.keys()` is a
`dict_keys` view, not a mapping, so `thefuzz.process.extract` returns
`(candidate, score)` 2-tuples for it; Python's unpacking of a 2-tuple
into three targets raises `ValueError`. -/
def unpack3 : String × Nat → Except String (String × Nat × Unit) :=
  fun _ => .error "ValueError: not enough values to unpack (expected 3, got 2)"

/-- The retrieval loop of `pf2e_search` (lines 41–48): each iteration
first unpacks the match tuple into three targets (which raises — see
`unpack3`); the rest of the body — resolve `INDEX[match_name]` (a missing
key raises `KeyError`), open and parse the file (a missing or malformed
file raises), append the labelled block — is kept as the source has it,
although the failing unpack makes it unreachable.  Any raise aborts the
whole loop with that error. -/
def loadBlocks (fs : Fs) (index : List (String × String)) :
    List (String × Nat) → Except String (List String)
  | [] => .ok []
  | m :: rest =>
    match unpack3 m with
    | .error e => .error e
    | .ok (match_name, _, _) =>
      match dictFind? index match_name with
      | none => .error ("KeyError: " ++ match_name)
      | some file_path =>
        match fs file_path with
        | none => .error ("cannot load " ++ file_path)
        | some content =>
          (loadBlocks fs index rest).map
            (fun blocks => matchBlock match_name file_path content :: blocks)

/-- The source's `pf2e_search(query)` over the prebuilt `index`.  `Except.error` models
an uncaught Python exception escaping the handler. -/
def pf2e_search (extract : Extract) (fs : Fs) (index : List (String × String))
    (query : String) : Except String String :=
  let good_matches := goodMatches extract index query
  if good_matches.isEmpty then
    .ok ("No rules found matching '" ++ query ++ "'.")
  else
    match loadBlocks fs index good_matches with
    | .error e => .error e
    | .ok results => .ok (String.intercalate "\n\n" results)

/-- One invocation of the handler together with the module-level `INDEX`
it leaves behind: the source reads `INDEX` (`.keys()` on line 33 and
`INDEX[match_name]` on line 43) and contains no assignment to it, so the
state after the call is the same dict. -/
def pf2e_search_run (extract : Extract) (fs : Fs) (index : List (String × String))
    (query : String) : Except String String × List (String × String) :=
  (pf2e_search extract fs index query, index)

/-- Insert a list of `(key, value)` entries into a dict, in order. -/
def foldIns (es : List (String × String)) (acc : List (String × String)) :
    List (String × String) :=
  es.foldl (fun m kv => dictInsert m kv.1 kv.2) acc

/-- The `(Document Key, full path)` entries that one `(root, files)` pair of
the walk contributes, in visit order. -/
def jsonEntriesDir (root : String) (files : List String) : List (String × String) :=
  (files.filter (fun f => pyEndsWith f ".json")).map
    (fun f => (nameKey f, os_path_join root f))

/-- All `(Document Key, full path)` entries of the walk, in visit order. -/
def jsonEntries (walk : List (String × List String)) : List (String × String) :=
  (walk.map (fun rf => jsonEntriesDir rf.1 rf.2)).flatten

/-- The value of the last entry for key `k`, if any. -/
def lastVal? (es : List (String × String)) (k : String) : Option String :=
  ((es.filter (fun p => p.1 = k)).getLast?).map (·.2)

/-- Executable substring test: does `pat` occur inside `s`? -/
def hasInfixL (pat : List Char) : List Char → Bool
  | [] => pat.isEmpty
  | c :: rest => pat.isPrefixOf (c :: rest) || hasInfixL pat rest

/-- Strip exactly the trailing `.json` extension (the base name is kept
intact otherwise). -/
def stripExt (file : String) : String :=
  if pyEndsWith file ".json" then ⟨file.data.take (file.data.length - 5)⟩ else file

/-- The Document Key derivation as the spec's words describe it: extension
stripped, `';'` re-mapped to `':'`, `'_'` replaced with `' '`.  Written for
comparison with the source's `nameKey`. -/
def specNameKey (file : String) : String :=
  pyReplace (pyReplace (stripExt file) ";" ":") "_" " "

/-! ## Concrete example data -/

/-- A tiny example index, as `build_global_index` would produce it for a
`spell` directory holding `fireball.json` and `fire_shield.json`. -/
def exIndex : List (String × String) :=
  [("fireball", "/data/spell/fireball.json"),
   ("fire shield", "/data/spell/fire_shield.json")]

/-- An example filesystem holding the two example documents (contents are
the opaque re-serialized blobs). -/
def exFs : Fs := fun p =>
  if p = "/data/spell/fireball.json" then some "fireball-doc"
  else if p = "/data/spell/fire_shield.json" then some "fire-shield-doc"
  else none

/-- The filesystem after every document file has been deleted. -/
def exFsEmpty : Fs := fun _ => none

/-- An example scorer placing one candidate just above the threshold and
one exactly on it, honouring its limit. -/
def exExtractSixty : Extract := fun _ _ n =>
  ([("fireball", 61), ("fire shield", 60)] : List (String × Nat)).take n

/-- An example scorer whose candidates never clear the threshold. -/
def exExtractLow : Extract := fun _ _ _ => [("fireball", 60), ("fire shield", 42)]

/-- An example scorer returning one fixed high-confidence candidate. -/
def exExtractFixed : Extract := fun _ _ _ => [("fireball", 95)]

/-- An example scorer naming a candidate that is not an index key. -/
def exExtractGhost : Extract := fun _ _ _ => [("ghost", 80)]

/-- An example scorer that gives every candidate score 0, the behaviour of
`thefuzz` once the processed query is empty. -/
def exExtractZero : Extract := fun _ cs n => (cs.map (fun c => (c, 0))).take n

/-! ## Dictionary lemmas -/

theorem dictHasKey_iff (d : List (String × String)) (k : String) :
    dictHasKey d k = true ↔ k ∈ dictKeys d := by
  simp only [dictHasKey, dictKeys, List.any_eq_true, List.mem_map, decide_eq_true_eq]

theorem dictKeys_dictInsert (d : List (String × String)) (k v : String) :
    dictKeys (dictInsert d k v) =
      if dictHasKey d k then dictKeys d else dictKeys d ++ [k] := by
  unfold dictInsert
  split
  · simp only [if_pos ‹_›, dictKeys, List.map_map]
    apply List.map_congr_left
    intro p _
    by_cases h : p.1 = k <;> simp [h]
  · simp [dictKeys, if_neg ‹_›]

theorem dictKeys_nodup_dictInsert (d : List (String × String)) (k v : String)
    (h : (dictKeys d).Nodup) : (dictKeys (dictInsert d k v)).Nodup := by
  rw [dictKeys_dictInsert]
  split
  · exact h
  · rename_i hno
    have hk : k ∉ dictKeys d := fun hmem => hno ((dictHasKey_iff d k).mpr hmem)
    simpa [List.nodup_append] using ⟨h, hk⟩

theorem find?_overwrite (d : List (String × String)) (k v : String) :
    (d.map (fun p => if p.1 = k then (k, v) else p)).find? (fun p => p.1 = k)
      = if dictHasKey d k then some (k, v) else none := by
  induction d with
  | nil => simp [dictHasKey]
  | cons p d ih =>
    by_cases h : p.1 = k
    · simp [h, dictHasKey]
    · simp only [List.map_cons, if_neg h]
      rw [List.find?_cons_of_neg _ (by simpa using h), ih]
      have hh : dictHasKey (p :: d) k = dictHasKey d k := by
        simp [dictHasKey, h]
      rw [hh]

theorem find?_overwrite_ne (d : List (String × String)) (k v k' : String) (hne : k' ≠ k) :
    (d.map (fun p => if p.1 = k then (k, v) else p)).find? (fun p => p.1 = k')
      = d.find? (fun p => p.1 = k') := by
  induction d with
  | nil => simp
  | cons p d ih =>
    by_cases h : p.1 = k
    · have h' : ¬ p.1 = k' := by rw [h]; exact fun e => hne e.symm
      simp only [List.map_cons, if_pos h]
      rw [List.find?_cons_of_neg _ (by simpa using fun e => hne e.symm),
        List.find?_cons_of_neg _ (by simpa using h'), ih]
    · simp only [List.map_cons, if_neg h]
      by_cases h2 : p.1 = k'
      · rw [List.find?_cons_of_pos _ (by simpa using h2),
          List.find?_cons_of_pos _ (by simpa using h2)]
      · rw [List.find?_cons_of_neg _ (by simpa using h2),
          List.find?_cons_of_neg _ (by simpa using h2), ih]

theorem dictFind?_dictInsert (d : List (String × String)) (k v k' : String) :
    dictFind? (dictInsert d k v) k' = if k' = k then some v else dictFind? d k' := by
  unfold dictInsert dictFind?
  by_cases hk : dictHasKey d k
  · rw [if_pos hk]
    by_cases h : k' = k
    · subst h; rw [if_pos rfl, find?_overwrite, if_pos hk]; rfl
    · rw [if_neg h, find?_overwrite_ne d k v k' h]
  · rw [if_neg hk, List.find?_append]
    by_cases h : k' = k
    · subst h
      have hnone : d.find? (fun p => p.1 = k') = none := by
        rw [List.find?_eq_none]
        intro p hp hpk
        exact hk ((dictHasKey_iff d k').mpr
          (List.mem_map.mpr ⟨p, hp, by simpa using hpk⟩))
      simp [hnone]
    · rw [if_neg h]
      have h1 : List.find? (fun p => decide (p.1 = k')) [(k, v)] = none := by
        simp
        exact fun e => h e.symm
      rw [h1, Option.or_none]

/-! ## The index build as a left fold over a flat entry list -/
theorem foldl_indexFile_eq (root : String) (files : List String)
    (acc : List (String × String)) :
    files.foldl (fun m' file => indexFile m' root file) acc
      = foldIns (jsonEntriesDir root files) acc := by
  induction files generalizing acc with
  | nil => rfl
  | cons f fs ih =>
    rw [List.foldl_cons, ih]
    by_cases h : pyEndsWith f ".json"
    · have h1 : jsonEntriesDir root (f :: fs)
          = (nameKey f, os_path_join root f) :: jsonEntriesDir root fs := by
        simp [jsonEntriesDir, List.filter_cons, h]
      have h2 : indexFile acc root f = dictInsert acc (nameKey f) (os_path_join root f) := by
        simp [indexFile, h]
      rw [h1, h2]
      rfl
    · have h1 : jsonEntriesDir root (f :: fs) = jsonEntriesDir root fs := by
        simp [jsonEntriesDir, List.filter_cons, h]
      have h2 : indexFile acc root f = acc := by
        simp [indexFile, h]
      rw [h1, h2]

theorem foldIns_append (es1 es2 acc : List (String × String)) :
    foldIns (es1 ++ es2) acc = foldIns es2 (foldIns es1 acc) := by
  simp [foldIns, List.foldl_append]

theorem build_global_index_foldl (walk : List (String × List String))
    (acc : List (String × String)) :
    walk.foldl (fun m rf => rf.2.foldl (fun m' file => indexFile m' rf.1 file) m) acc
      = foldIns (jsonEntries walk) acc := by
  induction walk generalizing acc with
  | nil => rfl
  | cons rf walk ih =>
    simp only [List.foldl_cons]
    rw [foldl_indexFile_eq, ih]
    have : jsonEntries (rf :: walk) = jsonEntriesDir rf.1 rf.2 ++ jsonEntries walk := by
      simp [jsonEntries]
    rw [this, foldIns_append]

theorem build_global_index_eq (walk : List (String × List String)) :
    build_global_index walk = foldIns (jsonEntries walk) [] :=
  build_global_index_foldl walk []

theorem lastVal?_cons (kv : String × String) (es : List (String × String)) (k : String) :
    lastVal? (kv :: es) k
      = if kv.1 = k then (lastVal? es k).or (some kv.2) else lastVal? es k := by
  unfold lastVal?
  by_cases h : kv.1 = k
  · rw [if_pos h, List.filter_cons, if_pos (by simpa using h)]
    cases hfe : (es.filter (fun p => p.1 = k)).getLast? with
    | none =>
      have : es.filter (fun p => p.1 = k) = [] := List.getLast?_eq_none_iff.mp hfe
      simp [this, List.getLast?_cons, hfe]
    | some x =>
      rw [List.getLast?_cons, hfe]
      simp
  · rw [if_neg h, List.filter_cons, if_neg (by simpa using h)]

theorem dictFind?_foldIns (es : List (String × String)) (acc : List (String × String))
    (k : String) :
    dictFind? (foldIns es acc) k = (lastVal? es k).or (dictFind? acc k) := by
  induction es generalizing acc with
  | nil => simp [foldIns, lastVal?]
  | cons kv es ih =>
    have hstep : foldIns (kv :: es) acc = foldIns es (dictInsert acc kv.1 kv.2) := rfl
    rw [hstep, ih, dictFind?_dictInsert, lastVal?_cons]
    by_cases h : kv.1 = k
    · rw [if_pos h, if_pos h.symm]
      cases lastVal? es k <;> simp
    · rw [if_neg h, if_neg (fun e => h e.symm)]

theorem dictKeys_nodup_foldIns (es : List (String × String)) (acc : List (String × String))
    (h : (dictKeys acc).Nodup) : (dictKeys (foldIns es acc)).Nodup := by
  induction es generalizing acc with
  | nil => exact h
  | cons kv es ih => exact ih _ (dictKeys_nodup_dictInsert acc kv.1 kv.2 h)

theorem mem_dictKeys_foldIns (es : List (String × String)) (acc : List (String × String))
    (k : String) (h : k ∈ dictKeys (foldIns es acc)) :
    k ∈ dictKeys acc ∨ k ∈ es.map (·.1) := by
  induction es generalizing acc with
  | nil => exact .inl h
  | cons kv es ih =>
    have hstep : foldIns (kv :: es) acc = foldIns es (dictInsert acc kv.1 kv.2) := rfl
    rw [hstep] at h
    rcases ih _ h with h' | h'
    · rw [dictKeys_dictInsert] at h'
      by_cases hk : dictHasKey acc kv.1
      · rw [if_pos hk] at h'
        exact .inl h'
      · rw [if_neg hk] at h'
        rcases List.mem_append.mp h' with h'' | h''
        · exact .inl h''
        · simp only [List.mem_singleton] at h''
          exact .inr (by simp [h''])
    · exact .inr (by rw [List.map_cons]; exact List.mem_cons_of_mem _ h')

theorem dictFind?_eq_none_iff (d : List (String × String)) (k : String) :
    dictFind? d k = none ↔ k ∉ dictKeys d := by
  unfold dictFind? dictKeys
  constructor
  · intro h hmem
    rcases List.mem_map.mp hmem with ⟨p, hp, hk⟩
    have := List.find?_eq_none.mp (Option.map_eq_none'.mp h) p hp
    simp only [decide_eq_true_eq] at this
    exact this hk
  · intro h
    rw [Option.map_eq_none', List.find?_eq_none]
    intro p hp hpk
    exact h (List.mem_map.mpr ⟨p, hp, by simpa using hpk⟩)

theorem lastVal?_eq_none_iff (es : List (String × String)) (k : String) :
    lastVal? es k = none ↔ k ∉ es.map (·.1) := by
  unfold lastVal?
  rw [Option.map_eq_none', List.getLast?_eq_none_iff, List.filter_eq_nil_iff]
  constructor
  · intro h hmem
    rcases List.mem_map.mp hmem with ⟨p, hp, hk⟩
    have hne : ¬ (decide (p.1 = k) = true) := h p hp
    simp only [decide_eq_true_eq] at hne
    exact hne hk
  · intro h p hp hpk
    exact h (List.mem_map.mpr ⟨p, hp, by simpa using hpk⟩)

theorem build_global_index_find (walk : List (String × List String)) (k : String) :
    dictFind? (build_global_index walk) k = lastVal? (jsonEntries walk) k := by
  rw [build_global_index_eq, dictFind?_foldIns]
  cases h : lastVal? (jsonEntries walk) k <;> simp [dictFind?]

theorem build_global_index_nodup (walk : List (String × List String)) :
    (dictKeys (build_global_index walk)).Nodup := by
  rw [build_global_index_eq]
  exact dictKeys_nodup_foldIns _ _ (by simp [dictKeys])

theorem mem_build_global_index (walk : List (String × List String)) (k : String) :
    k ∈ dictKeys (build_global_index walk) ↔ k ∈ (jsonEntries walk).map (·.1) := by
  constructor
  · intro h
    rcases mem_dictKeys_foldIns _ _ _ (build_global_index_eq walk ▸ h) with h' | h'
    · simp [dictKeys] at h'
    · exact h'
  · intro h
    by_contra hmem
    have h1 : dictFind? (build_global_index walk) k = none :=
      (dictFind?_eq_none_iff _ _).mpr hmem
    rw [build_global_index_find] at h1
    exact ((lastVal?_eq_none_iff _ _).mp h1) h

/-! ## Character-level facts about the key derivation -/
theorem not_mem_pyReplaceL_single (a : Char) (rep : List Char) (hrep : a ∉ rep) :
    ∀ s : List Char, a ∉ pyReplaceL [a] rep s := by
  intro s
  induction s using pyReplaceL.induct [a] rep with
  | case1 => simp [pyReplaceL]
  | case2 c rest h ih =>
    rw [pyReplaceL, if_pos h]
    intro hmem
    rcases List.mem_append.mp hmem with h1 | h1
    · exact hrep h1
    · exact ih (by simpa using h1)
  | case3 c rest h ih =>
    rw [pyReplaceL, if_neg h]
    intro hmem
    rcases List.mem_cons.mp hmem with h1 | h1
    · apply h
      refine ⟨by simp, ?_⟩
      subst h1
      simp [List.isPrefixOf]
    · exact ih h1

theorem mem_pyReplaceL (pat rep : List Char) (b : Char) :
    ∀ s : List Char, b ∈ pyReplaceL pat rep s → b ∈ s ∨ b ∈ rep := by
  intro s
  induction s using pyReplaceL.induct pat rep with
  | case1 => intro h; simp [pyReplaceL] at h
  | case2 c rest hc ih =>
    rw [pyReplaceL, if_pos hc]
    intro hmem
    rcases List.mem_append.mp hmem with h1 | h1
    · exact .inr h1
    · rcases ih h1 with h2 | h2
      · exact .inl (List.drop_subset _ _ h2)
      · exact .inr h2
  | case3 c rest hc ih =>
    rw [pyReplaceL, if_neg hc]
    intro hmem
    rcases List.mem_cons.mp hmem with h1 | h1
    · exact .inl (by simp [h1])
    · rcases ih h1 with h2 | h2
      · exact .inl (List.mem_cons_of_mem _ h2)
      · exact .inr h2

theorem nameKey_no_semicolon_underscore (f : String) :
    ';' ∉ (nameKey f).data ∧ '_' ∉ (nameKey f).data := by
  unfold nameKey pyReplace
  constructor
  · intro hmem
    rcases mem_pyReplaceL _ _ _ _ (by simpa using hmem) with h1 | h1
    · exact not_mem_pyReplaceL_single ';' [':'] (by decide) _ (by simpa using h1)
    · simp at h1
  · intro hmem
    exact not_mem_pyReplaceL_single '_' [' '] (by decide) _ (by simpa using hmem)

/-! ## Stripping a trailing pattern occurrence -/

/-- If `pat` has no border (no proper non-empty prefix of `pat` is also a
suffix of `pat`) and does not occur inside `pre`, then the left-to-right
replacement finds exactly the trailing occurrence. -/
theorem pyReplaceL_trailing (pat rep : List Char) (hpat : pat ≠ [])
    (hB : ∀ j, 0 < j → j < pat.length → pat.take j ≠ pat.drop (pat.length - j)) :
    ∀ pre : List Char, hasInfixL pat pre = false →
      pyReplaceL pat rep (pre ++ pat) = pre ++ rep := by
  intro pre
  induction pre with
  | nil =>
    intro _
    rw [List.nil_append]
    cases hp : pat with
    | nil => exact absurd hp hpat
    | cons c rest =>
      subst hp
      rw [pyReplaceL, if_pos ⟨by simp, List.isPrefixOf_iff_prefix.mpr (List.prefix_refl _)⟩,
        List.drop_length, pyReplaceL, List.append_nil, List.nil_append]
  | cons c pre ih =>
    intro hinf
    have hinf1 : pat.isPrefixOf (c :: pre) = false := by
      cases h1 : pat.isPrefixOf (c :: pre) <;> simp_all [hasInfixL]
    have hinf2 : hasInfixL pat pre = false := by
      cases h2 : hasInfixL pat pre <;> simp_all [hasInfixL]
    have hnopfx : ¬ pat.isPrefixOf ((c :: pre) ++ pat) = true := by
      intro hpfx
      have hpfx' : pat <+: (c :: pre) ++ pat := List.isPrefixOf_iff_prefix.mp hpfx
      have hE : pat = ((c :: pre) ++ pat).take pat.length :=
        List.prefix_iff_eq_take.mp hpfx'
      rw [List.take_append_eq_append_take] at hE
      by_cases hlen : pat.length ≤ (c :: pre).length
      · have h0 : pat.length - (c :: pre).length = 0 := Nat.sub_eq_zero_of_le hlen
        rw [h0, List.take_zero, List.append_nil] at hE
        have : pat <+: (c :: pre) := hE ▸ List.take_prefix _ _
        rw [List.isPrefixOf_iff_prefix.mpr this] at hinf1
        exact absurd hinf1 (by simp)
      · have hlt : (c :: pre).length < pat.length := Nat.lt_of_not_le hlen
        rw [List.take_of_length_le (Nat.le_of_lt hlt)] at hE
        set j := pat.length - (c :: pre).length with hj
        have hj0 : 0 < j := Nat.sub_pos_of_lt hlt
        have hjlt : j < pat.length := by
          have : 0 < (c :: pre).length := by simp
          omega
        have hdrop : pat.drop (c :: pre).length = pat.take j := by
          conv_lhs => rw [hE]
          rw [List.drop_left]
        have hsub : pat.length - j = (c :: pre).length := by omega
        exact hB j hj0 hjlt (by rw [hsub, hdrop])
    rw [List.cons_append, pyReplaceL, if_neg (by
      intro hand
      exact hnopfx (by simpa [List.cons_append] using hand.2))]
    rw [ih hinf2, List.cons_append]

/-! ## The spec's description of the key derivation -/
theorem pyEndsWith_append (pre : String) : pyEndsWith (pre ++ ".json") ".json" = true := by
  unfold pyEndsWith
  rw [String.data_append]
  exact List.isSuffixOf_iff_suffix.mpr (List.suffix_append _ _)

theorem stripExt_append (pre : String) : stripExt (pre ++ ".json") = pre := by
  unfold stripExt
  rw [if_pos (pyEndsWith_append pre)]
  have hlen : (pre ++ ".json").data.length - 5 = pre.data.length := by
    rw [String.data_append, List.length_append]
    rfl
  rw [hlen, String.data_append, List.take_left' rfl]

/-! ## The retrieval loop -/
theorem loadBlocks_error_of_mem (fs : Fs) (index : List (String × String))
    (ms : List (String × Nat)) (m : String × Nat) (hm : m ∈ ms) :
    ∃ e, loadBlocks fs index ms = .error e := by
  cases ms with
  | nil => cases hm
  | cons m0 rest =>
    exact ⟨"ValueError: not enough values to unpack (expected 3, got 2)", rfl⟩

/-- The early return on line 39: no surviving match yields exactly the
no-results message, independently of the filesystem and index values. -/
theorem pf2e_search_of_no_good (extract : Extract) (fs : Fs)
    (index : List (String × String)) (query : String)
    (h : goodMatches extract index query = []) :
    pf2e_search extract fs index query
      = .ok ("No rules found matching '" ++ query ++ "'.") := by
  simp [pf2e_search, h]

theorem goodMatches_eq_nil_of_low (extract : Extract) (index : List (String × String))
    (query : String) (hlow : ∀ m ∈ searchMatches extract index query, m.2 ≤ 60) :
    goodMatches extract index query = [] := by
  rw [goodMatches, List.filter_eq_nil_iff]
  intro m hm
  simpa using Nat.not_lt.mpr (hlow m hm)

/-! ## The claims -/

/-- C1: for every query and index, `pf2e_search` first obtains the top-3
ranked candidates from the external fuzzy scorer (`searchMatches` passes
the cap of 3 to the scorer before any filtering, so when the scorer
honours its limit at most 3 candidates are considered), and then retains
exactly the candidates whose score is strictly greater than 60; a
candidate scoring exactly 60 is discarded. -/
theorem pf2e_search_top3_then_filter (extract : Extract) (index : List (String × String))
    (query : String) (hcap : ∀ q cs n, (extract q cs n).length ≤ n) :
    searchMatches extract index query = extract query (dictKeys index) 3
      ∧ (searchMatches extract index query).length ≤ 3
      ∧ (∀ m, m ∈ goodMatches extract index query
            ↔ m ∈ searchMatches extract index query ∧ 60 < m.2)
      ∧ (∀ m ∈ searchMatches extract index query, m.2 = 60 →
            m ∉ goodMatches extract index query) := by
  refine ⟨rfl, hcap query (dictKeys index) 3, fun m => ?_, fun m hm h60 hmem => ?_⟩
  · simp [goodMatches, List.mem_filter]
  · rw [goodMatches, List.mem_filter] at hmem
    simp [h60] at hmem

theorem pf2e_search_top3_then_filter_witness :
    (searchMatches exExtractSixty exIndex "fire").length ≤ 3
      ∧ (("fireball", 61) ∈ goodMatches exExtractSixty exIndex "fire"
           ↔ ("fireball", 61) ∈ searchMatches exExtractSixty exIndex "fire" ∧ 60 < 61)
      ∧ ("fire shield", 60) ∉ goodMatches exExtractSixty exIndex "fire" := by
  have hcap : ∀ q cs n, (exExtractSixty q cs n).length ≤ n := by
    intro q cs n
    exact List.length_take_le n _
  exact ⟨(pf2e_search_top3_then_filter exExtractSixty exIndex "fire" hcap).2.1,
    (pf2e_search_top3_then_filter exExtractSixty exIndex "fire" hcap).2.2.1 ("fireball", 61),
    (pf2e_search_top3_then_filter exExtractSixty exIndex "fire" hcap).2.2.2
      ("fire shield", 60) (by decide) rfl⟩

/-- C2: when no ranked candidate scores strictly above 60, the handler
returns exactly the no-results message containing the original query, for
every filesystem whatsoever — no index entry is resolved and no file is
opened, as the result does not depend on `fs` at all. -/
theorem pf2e_search_no_results (extract : Extract) (index : List (String × String))
    (query : String)
    (hlow : ∀ m ∈ searchMatches extract index query, m.2 ≤ 60) :
    ∀ fs : Fs, pf2e_search extract fs index query
      = .ok ("No rules found matching '" ++ query ++ "'.") := by
  intro fs
  exact pf2e_search_of_no_good extract fs index query
    (goodMatches_eq_nil_of_low extract index query hlow)

theorem pf2e_search_no_results_witness :
    pf2e_search exExtractLow exFsEmpty exIndex "dragon"
      = .ok ("No rules found matching '" ++ "dragon" ++ "'.") :=
  pf2e_search_no_results exExtractLow exIndex "dragon" (by decide) exFsEmpty

/-- C3: for every directory tree, the index holds exactly one entry per
unique derived Document Key (its key list is duplicate-free, and a key is
present exactly when some walked `.json` file derives it), and looking up
a key yields the full path recorded for the file visited last in traversal
order among those deriving it. -/
theorem build_global_index_unique_last_wins (walk : List (String × List String)) :
    (dictKeys (build_global_index walk)).Nodup
      ∧ (∀ k, k ∈ dictKeys (build_global_index walk) ↔ k ∈ (jsonEntries walk).map (·.1))
      ∧ (∀ k, dictFind? (build_global_index walk) k = lastVal? (jsonEntries walk) k) :=
  ⟨build_global_index_nodup walk, mem_build_global_index walk, build_global_index_find walk⟩

/-- C4 counterexample: the claim says only the trailing extension is
stripped, so `a.json_b.json` would derive `a.json b`; the code removes
every occurrence of `.json` and derives `a b` instead. -/
theorem nameKey_interior_json_counterexample :
    nameKey "a.json_b.json" = "a b"
      ∧ specNameKey "a.json_b.json" = "a.json b"
      ∧ nameKey "a.json_b.json" ≠ specNameKey "a.json_b.json" := by
  refine ⟨?_, ?_, ?_⟩
  · simp [nameKey, pyReplace, pyReplaceL]
  · simp [specNameKey, stripExt, pyEndsWith, pyReplace, pyReplaceL, List.isSuffixOf]
  · have h1 : nameKey "a.json_b.json" = "a b" := by
      simp [nameKey, pyReplace, pyReplaceL]
    have h2 : specNameKey "a.json_b.json" = "a.json b" := by
      simp [specNameKey, stripExt, pyEndsWith, pyReplace, pyReplaceL, List.isSuffixOf]
    rw [h1, h2]
    decide

/-- C4 (amended): for a file name in which `.json` occurs nowhere except
as the trailing extension, the derived Document Key is exactly what the
claim describes: the base name with the trailing extension stripped, `';'`
re-mapped to `':'` and `'_'` replaced with a space.  When `.json` also
occurs in the interior, the code removes every occurrence (left to right),
not only the trailing one. -/
theorem nameKey_trailing_only (pre : String)
    (h : hasInfixL ".json".data pre.data = false) :
    nameKey (pre ++ ".json") = specNameKey (pre ++ ".json")
      ∧ specNameKey (pre ++ ".json") = pyReplace (pyReplace pre ";" ":") "_" " " := by
  have h2 : specNameKey (pre ++ ".json") = pyReplace (pyReplace pre ";" ":") "_" " " := by
    rw [specNameKey, stripExt_append]
  have hinner : pyReplace (pre ++ ".json") ".json" "" = pre := by
    unfold pyReplace
    rw [String.data_append]
    rw [show ("" : String).data = [] from rfl]
    rw [pyReplaceL_trailing (".json".data) [] (by decide) ?hB pre.data h]
    · rw [List.append_nil]
    case hB =>
      intro j hj0 hj5
      have hj : j < 5 := by simpa using hj5
      interval_cases j <;> decide
  refine ⟨?_, h2⟩
  rw [nameKey, hinner, h2]

theorem nameKey_trailing_only_witness :
    hasInfixL ".json".data ("grapple;condition" : String).data = false
      ∧ (nameKey ("grapple;condition" ++ ".json")
            = specNameKey ("grapple;condition" ++ ".json")
          ∧ specNameKey ("grapple;condition" ++ ".json")
              = pyReplace (pyReplace "grapple;condition" ";" ":") "_" " ") :=
  ⟨by decide, nameKey_trailing_only "grapple;condition" (by decide)⟩

/-- C5 counterexample: with the indexed file deleted, the query does not
produce any retrieval-failure report — the handler raises: the loop
header's three-target unpack of the scorer's `(candidate, score)` pair
fails with `ValueError` (and, had it not, the `open` of the missing file
would have raised next); the error escapes `pf2e_search` unhandled. -/
theorem pf2e_search_deleted_file_raises :
    pf2e_search exExtractFixed exFsEmpty exIndex "fireball"
      = .error "ValueError: not enough values to unpack (expected 3, got 2)" := by
  simp [pf2e_search, goodMatches, searchMatches, exExtractFixed, exFsEmpty, exIndex,
    dictKeys, loadBlocks, unpack3, dictFind?]

/-- C5 (amended): if an index entry's file is deleted after the index is
built, a query whose surviving candidates include that entry's key makes
`pf2e_search` abort with an uncaught error: no result string of any kind
(in particular no per-candidate failure report) is returned. -/
theorem pf2e_search_deleted_file_error (extract : Extract) (fs : Fs)
    (index : List (String × String)) (query : String) (m : String × Nat) (p : String)
    (hm : m ∈ goodMatches extract index query)
    (hp : dictFind? index m.1 = some p) (hfs : fs p = none) :
    (pf2e_search extract fs index query).isOk = false := by
  obtain ⟨e, he⟩ := loadBlocks_error_of_mem fs index _ m hm
  have hne : (goodMatches extract index query).isEmpty = false := by
    cases hgm : goodMatches extract index query with
    | nil => rw [hgm] at hm; cases hm
    | cons a l => rfl
  rw [pf2e_search]
  rw [if_neg (by simp [hne])]
  rw [he]
  rfl

theorem pf2e_search_deleted_file_error_witness :
    (pf2e_search exExtractFixed exFsEmpty exIndex "fireball").isOk = false :=
  pf2e_search_deleted_file_error exExtractFixed exFsEmpty exIndex "fireball"
    ("fireball", 95) "/data/spell/fireball.json" (by decide) (by decide) rfl

/-- C6: if any surviving candidate's key is missing from the index, or its
file location no longer resolves to loadable well-formed content, the
entire search aborts with an error: no partial result string covering the
remaining candidates is returned to the caller. -/
theorem pf2e_search_aborts_on_retrieval_failure (extract : Extract) (fs : Fs)
    (index : List (String × String)) (query : String) (m : String × Nat)
    (hm : m ∈ goodMatches extract index query)
    (hbad : (dictFind? index m.1).bind fs = none) :
    (pf2e_search extract fs index query).isOk = false := by
  obtain ⟨e, he⟩ := loadBlocks_error_of_mem fs index _ m hm
  have hne : (goodMatches extract index query).isEmpty = false := by
    cases hgm : goodMatches extract index query with
    | nil => rw [hgm] at hm; cases hm
    | cons a l => rfl
  rw [pf2e_search]
  rw [if_neg (by simp [hne])]
  rw [he]
  rfl

theorem pf2e_search_aborts_on_retrieval_failure_witness :
    (pf2e_search exExtractGhost exFs exIndex "ghost").isOk = false :=
  pf2e_search_aborts_on_retrieval_failure exExtractGhost exFs exIndex "ghost"
    ("ghost", 80) (by decide) (by decide)

/-- C7: `pf2e_search` is deterministic and stateless: two invocations with
the same scorer, filesystem and index produce the same output, and the
module-level `INDEX` after either invocation is the index it started with
(the handler only reads it). -/
theorem pf2e_search_run_stateless (extract : Extract) (fs : Fs)
    (index : List (String × String)) (query : String) :
    (pf2e_search_run extract fs index query).1 = (pf2e_search_run extract fs index query).1
      ∧ (pf2e_search_run extract fs index query).2 = index :=
  ⟨rfl, rfl⟩

/-- C8 (code bug): the assembled output the claim and spec Step 4 describe
is never produced.  At this input exactly one candidate survives filtering
and its indexed file is present and loadable — the claim's scenario in
full — yet the handler raises: line 42 unpacks the scorer's
`(candidate, score)` pairs into three targets, which fails with
`ValueError` before any index lookup or file read, so the loop body that
would build and join the labelled blocks (lines 43–48) is unreachable. -/
theorem pf2e_search_never_assembles :
    goodMatches exExtractFixed exIndex "fireball" = [("fireball", 95)]
      ∧ dictFind? exIndex "fireball" = some "/data/spell/fireball.json"
      ∧ exFs "/data/spell/fireball.json" = some "fireball-doc"
      ∧ pf2e_search exExtractFixed exFs exIndex "fireball"
          = .error "ValueError: not enough values to unpack (expected 3, got 2)" := by
  refine ⟨by decide, by decide, by decide, ?_⟩
  simp [pf2e_search, goodMatches, searchMatches, exExtractFixed, exFs, exIndex,
    dictKeys, loadBlocks, unpack3, dictFind?]

/-- C9: a query that is empty or consists only of whitespace does not
crash the handler: with the scorer's documented behaviour on an empty
processed query (no candidate scores above the threshold), the result is
the defined no-results response naming the query. -/
theorem pf2e_search_whitespace_query (extract : Extract) (fs : Fs)
    (index : List (String × String)) (query : String)
    (hws : query.data.all (fun c => c.isWhitespace) = true)
    (hlow : ∀ m ∈ searchMatches extract index query, m.2 ≤ 60) :
    pf2e_search extract fs index query
      = .ok ("No rules found matching '" ++ query ++ "'.") :=
  pf2e_search_of_no_good extract fs index query
    (goodMatches_eq_nil_of_low extract index query hlow)

theorem pf2e_search_whitespace_query_witness :
    pf2e_search exExtractZero exFs exIndex ""
      = .ok ("No rules found matching '" ++ "" ++ "'.") :=
  pf2e_search_whitespace_query exExtractZero exFs exIndex "" (by decide) (by decide)

/-- C10 counterexample: the walk holding the single file `.js.jsonon.json`
produces the single Document Key `.json` — removing the occurrences of
`.json` from the name creates a new `.json` occurrence, so index keys can
contain the substring `.json`. -/
theorem build_global_index_key_contains_json :
    dictKeys (build_global_index [("/data/condition", [".js.jsonon.json"])]) = [".json"]
      ∧ hasInfixL ".json".data (".json" : String).data = true := by
  constructor
  · simp [build_global_index, dictKeys, indexFile, pyEndsWith, nameKey, pyReplace, pyReplaceL,
      dictInsert, dictHasKey, os_path_join, List.isSuffixOf]
  · decide

/-- C10 (amended): every Document Key in the index contains no `';'` and
no `'_'` character (those two replacements remove all occurrences and
introduce none); the `.json` part of the claim fails, since removing
`.json` occurrences can create a new one. -/
theorem build_global_index_keys_clean (walk : List (String × List String)) (k : String)
    (hk : k ∈ dictKeys (build_global_index walk)) :
    ';' ∉ k.data ∧ '_' ∉ k.data := by
  have hmem := (mem_build_global_index walk k).mp hk
  rcases List.mem_map.mp hmem with ⟨e, he, hek⟩
  obtain ⟨f, hf⟩ : ∃ f, e.1 = nameKey f := by
    unfold jsonEntries at he
    rcases List.mem_flatten.mp he with ⟨l, hl, hel⟩
    rcases List.mem_map.mp hl with ⟨rf, hrf, rfl⟩
    unfold jsonEntriesDir at hel
    rcases List.mem_map.mp hel with ⟨f, hfmem, rfl⟩
    exact ⟨f, rfl⟩
  rw [← hek, hf]
  exact nameKey_no_semicolon_underscore f

theorem build_global_index_keys_clean_witness :
    "fire ball:x" ∈ dictKeys (build_global_index [("/data/spell", ["fire_ball;x.json"])])
      ∧ ';' ∉ ("fire ball:x" : String).data ∧ '_' ∉ ("fire ball:x" : String).data := by
  have hk : "fire ball:x"
      ∈ dictKeys (build_global_index [("/data/spell", ["fire_ball;x.json"])]) := by
    simp [build_global_index, dictKeys, indexFile, pyEndsWith, nameKey, pyReplace, pyReplaceL,
      dictInsert, dictHasKey, os_path_join, List.isSuffixOf]
  exact ⟨hk, build_global_index_keys_clean _ _ hk⟩
